import Mathlib

/-!
Verification of the mongobar replay/stress engine against its specification.

The definitions below are a shallow embedding of the Rust sources
(`src/mongobar/mod.rs`, `src/indicator.rs`).  JSON command payloads
(`serde_json::Value`) are modelled by the inductive `Json`; fallible Rust
code (`unwrap` on `Option`/panics) is modelled with `Option`.
-/

/-- Model of `serde_json::Value`: the JSON-compatible command payload tree. -/
inductive Json where
  | null : Json
  | jbool : Bool → Json
  | jnum : Int → Json
  | jstr : String → Json
  | jarr : List Json → Json
  | jobj : List (String × Json) → Json

/-- `serde_json::Value::get(key)`: field lookup, `none` unless the value is an
object containing the key. -/
def Json.get : Json → String → Option Json
  | .jobj fields, k => fields.lookup k
  | _, _ => Option.none

/-- `serde_json::Value::as_array()`. -/
def Json.asArr : Json → Option (List Json)
  | .jarr xs => some xs
  | _ => Option.none

/-- The `Op` enum of `op_row.rs` (variants as used in `mod.rs`). -/
inductive Op where
  | None | Find | Count | Insert | Update | Delete
  | Command | Aggregate | GetMore | FindAndModify
  deriving DecidableEq, Repr

/-- The `OpRow` operation record (fields per the uses in `mod.rs`:
`id, ns, ts, op, db, coll, cmd, args, key, hash`).  `args` is kept as a
`Json` object standing for the normalized BSON document. -/
structure OpRow where
  id : String
  ns : String
  ts : Int
  op : Op
  db : String
  coll : String
  cmd : Json
  args : Json
  key : String
  hash : String

/-! ## Reversibility pass (`Mongobar::op_revert`, mod.rs lines 1016-1222)

The Insert arm collects `cmd.documents[*]._id` (each `.unwrap()` modelled as
`Option` bind), and emits one Delete row with command
`{deletes: [{q: {_id: {$in: ids}}, limit: 0}]}`.  The `Update`, `Delete` and
`FindAndModify` arms of the source are entirely commented out, so those
records emit nothing; the read-only ops are explicit no-ops. -/

/-- The `_ids` extraction of the Insert arm (mod.rs 1036-1042):
`cmd.get("documents").map(as_array().unwrap()).unwrap()` then
`v.get("_id").unwrap()` per document. -/
def insertRevertIds (cmd : Json) : Option (List Json) :=
  ((cmd.get "documents").bind Json.asArr).bind
    (fun docs => docs.mapM (fun d => d.get "_id"))

/-- The compensating command built at mod.rs 1043-1054. -/
def reCmd (ids : List Json) : Json :=
  .jobj [("deletes", .jarr [ .jobj
    [ ("q", .jobj [("_id", .jobj [("$in", .jarr ids)])]),
      ("limit", .jnum 0) ] ])]

/-- The compensating row built at mod.rs 1055-1066 for an Insert record. -/
def insertRevertRow (r : OpRow) (ids : List Json) : OpRow :=
  { id := r.id, ns := r.ns, ts := r.ts, op := Op.Delete,
    db := r.db, coll := r.coll, cmd := reCmd ids,
    args := .jobj [], key := "", hash := "" }

/-- One loop iteration of `op_revert`: the rows appended to the revert file
for a single forward record (`none` models a panic on a malformed Insert). -/
def revertRowEmit (r : OpRow) : Option (List OpRow) :=
  match r.op with
  | Op.Insert => (insertRevertIds r.cmd).map (fun ids => [insertRevertRow r ids])
  | _ => some []

/-- The emission loop of `op_revert` over the forward log (in file order):
concatenation of the per-record emissions, in order. -/
def revertEmit : List OpRow → Option (List OpRow)
  | [] => some []
  | r :: rest => do
      let e ← revertRowEmit r
      let tail ← revertEmit rest
      pure (e ++ tail)

/-- Modelled from the spec: `reverse_file` lives in `op_logs.rs`, which is not
among the provided sources; per §4.1 it "reverses the line order of a file in
place". -/
def reverse_file (lines : List OpRow) : List OpRow :=
  lines.reverse

/-- `Mongobar::op_revert`: emit compensations for the forward log, then
reverse the revert file's line order (mod.rs 1219). -/
def op_revert (log : List OpRow) : Option (List OpRow) :=
  (revertEmit log).map reverse_file

/-- The Delete row that `op_revert` emits for a well-formed Insert record
(using `getD` only under the well-formedness hypothesis). -/
def insertRevertOf (r : OpRow) : OpRow :=
  insertRevertRow r ((insertRevertIds r.cmd).getD [])

theorem revertEmit_insert_only (log : List OpRow)
    (h : ∀ r ∈ log, r.op = Op.Insert ∧ (insertRevertIds r.cmd).isSome = true) :
    revertEmit log = some (log.map insertRevertOf) := by
  induction log with
  | nil => rfl
  | cons r rest ih =>
      obtain ⟨hop, hids⟩ := h r (List.mem_cons_self r rest)
      obtain ⟨ids, hids'⟩ := Option.isSome_iff_exists.mp hids
      have htail := ih (fun x hx => h x (List.mem_cons_of_mem r hx))
      simp [revertEmit, revertRowEmit, hop, hids', htail, insertRevertOf]

/-- Scenario row: one captured Insert of two documents carrying `_id`s. -/
def sampleInsertRow : OpRow :=
  { id := "i1", ns := "t.c", ts := 0, op := Op.Insert, db := "t", coll := "c",
    cmd := .jobj [("documents", .jarr
      [ .jobj [("_id", .jnum 1), ("x", .jnum 1)],
        .jobj [("_id", .jnum 2), ("x", .jnum 2)] ])],
    args := .jobj [], key := "", hash := "" }

/-- Captured Delete rows (single-document and multi-predicate shapes). -/
def sampleDeleteRow : OpRow :=
  { id := "d1", ns := "t.c", ts := 0, op := Op.Delete, db := "t", coll := "c",
    cmd := .jobj [("deletes", .jarr
      [ .jobj [("q", .jobj [("a", .jnum 1)]), ("limit", .jnum 1)] ])],
    args := .jobj [], key := "", hash := "" }

def sampleDeleteRow2 : OpRow :=
  { id := "d2", ns := "t.c", ts := 0, op := Op.Delete, db := "t", coll := "c",
    cmd := .jobj [("deletes", .jarr
      [ .jobj [("q", .jobj [("b", .jnum 7)]), ("limit", .jnum 0)],
        .jobj [("q", .jobj [("c", .jnum 8)]), ("limit", .jnum 1)] ])],
    args := .jobj [], key := "", hash := "" }

/-- C1: on a forward log of Insert records whose documents all carry `_id`,
`op_revert` emits exactly one Delete record per Insert, whose command is
`{deletes: [{q: {_id: {$in: ids}}, limit: 0}]}` with the same db and
collection, and the revert file's line order is reversed at the end. -/
theorem op_revert_insert_only (log : List OpRow)
    (h : ∀ r ∈ log, r.op = Op.Insert ∧ (insertRevertIds r.cmd).isSome = true) :
    op_revert log = some (reverse_file (log.map insertRevertOf)) ∧
    ∀ r ∈ log, ∀ ids, insertRevertIds r.cmd = some ids →
      insertRevertOf r = { id := r.id,
                           ns := r.ns,
                           ts := r.ts,
                           op := Op.Delete,
                           db := r.db,
                           coll := r.coll,
                           cmd := reCmd ids,
                           args := Json.jobj [],
                           key := "",
                           hash := "" } := by
  refine ⟨?_, ?_⟩
  · rw [op_revert, revertEmit_insert_only log h]
    rfl
  · intro r _ ids hids
    rw [insertRevertOf, hids]
    rfl

/-- C1 witness: the spec's seed scenario 3, one Insert of `_id`s 1 and 2. -/
theorem op_revert_insert_only_witness :
    op_revert [sampleInsertRow] =
      some (reverse_file ([sampleInsertRow].map insertRevertOf)) ∧
    insertRevertOf sampleInsertRow =
      { id := sampleInsertRow.id,
        ns := sampleInsertRow.ns,
        ts := sampleInsertRow.ts,
        op := Op.Delete,
        db := sampleInsertRow.db,
        coll := sampleInsertRow.coll,
        cmd := reCmd [Json.jnum 1, Json.jnum 2],
        args := Json.jobj [],
        key := "",
        hash := "" } := by
  have H := op_revert_insert_only [sampleInsertRow]
    (by
      intro r hr
      rw [List.mem_singleton] at hr
      subst hr
      exact ⟨rfl, rfl⟩)
  exact ⟨H.1, H.2 sampleInsertRow (List.mem_singleton.mpr rfl)
    [Json.jnum 1, Json.jnum 2] rfl⟩

/-- C3 counterexample: a forward log consisting of one Delete record produces
an empty revert log — no pre-image query result is inserted, contradicting
the claim that `op_revert` emits an Insert of the pre-images (the Delete arm
of the source, mod.rs 1119-1155, is entirely commented out). -/
theorem op_revert_delete_counterexample :
    op_revert [sampleDeleteRow] = some [] := rfl

/-- C3 (amended): every Delete record processed by `op_revert` is skipped:
nothing is queried and nothing is emitted to the revert log. -/
theorem op_revert_delete_skipped (log : List OpRow)
    (h : ∀ r ∈ log, r.op = Op.Delete) :
    op_revert log = some [] := by
  have hemit : revertEmit log = some [] := by
    induction log with
    | nil => rfl
    | cons r rest ih =>
        have hop := h r (List.mem_cons_self r rest)
        have htail := ih (fun x hx => h x (List.mem_cons_of_mem r hx))
        simp [revertEmit, revertRowEmit, hop, htail]
  rw [op_revert, hemit]
  rfl

/-- C3 witness for the amended claim: a two-record Delete-only log. -/
theorem op_revert_delete_skipped_witness :
    op_revert [sampleDeleteRow2, sampleDeleteRow] = some [] :=
  op_revert_delete_skipped [sampleDeleteRow2, sampleDeleteRow]
    (by
      intro r hr
      rw [List.mem_cons, List.mem_singleton] at hr
      rcases hr with h | h <;> (subst h; rfl))

/-! ## Database client pool (`ClientPool`, mod.rs lines 1813-1856)

Clients are opaque handles; we identify each created client by its creation
index (the `len` value pushed at creation time is exactly that index, so the
model may store the indices themselves). -/

structure ClientPool where
  uri : String
  clients : List Nat
  every_size : Nat
  get_index : Nat

/-- `ClientPool::new` (mod.rs 1821-1830). -/
def ClientPool.new (uri : String) (every_size : Nat) : ClientPool :=
  { uri := uri, clients := [], every_size := every_size, get_index := 0 }

/-- `ClientPool::get` (mod.rs 1832-1849): lazily create a client when
`clients.len() * every_size ≤ get_index`, then hand out
`clients[get_index / every_size]` and advance `get_index`. -/
def ClientPool.get (p : ClientPool) : Nat × ClientPool :=
  let len := p.clients.length
  let total := len * p.every_size
  let clients := if total ≤ p.get_index then p.clients ++ [len] else p.clients
  let block_index := p.get_index / p.every_size
  (clients.getD block_index 0,
   { p with clients := clients, get_index := p.get_index + 1 })

/-- The results and final state of `n` successive `get()` calls. -/
def ClientPool.getN (p : ClientPool) : Nat → List Nat × ClientPool
  | 0 => ([], p)
  | n + 1 =>
      let r := p.get
      let rs := r.2.getN n
      (r.1 :: rs.1, rs.2)

/-- The reachable pool state after `m` calls on a pool built with
`per_client_max = k`: `⌈m/k⌉` clients (numbered in creation order) and
`get_index = m`. -/
def poolState (uri : String) (k m : Nat) : ClientPool :=
  { uri := uri, clients := List.range ((m + k - 1) / k),
    every_size := k, get_index := m }

theorem range_getD {n i : Nat} (h : i < n) : (List.range n).getD i 0 = i := by
  rw [List.getD_eq_getElem?_getD, List.getElem?_range h]
  rfl

theorem cdiv_eq {k : Nat} (hk : 0 < k) (m : Nat) :
    (m + k - 1) / k = if m % k = 0 then m / k else m / k + 1 := by
  obtain ⟨q, r, hr, rfl⟩ : ∃ q r, r < k ∧ m = k * q + r :=
    ⟨m / k, m % k, Nat.mod_lt _ hk, (Nat.div_add_mod m k).symm⟩
  have hmod : (k * q + r) % k = r := by
    rw [Nat.mul_add_mod, Nat.mod_eq_of_lt hr]
  have hdiv : (k * q + r) / k = q := by
    rw [Nat.mul_add_div hk, Nat.div_eq_of_lt hr]
    omega
  rw [hmod, hdiv]
  by_cases hr0 : r = 0
  · subst hr0
    rw [if_pos rfl]
    have h1 : k * q + 0 + k - 1 = k * q + (k - 1) := by
      set A := k * q
      omega
    rw [h1, Nat.mul_add_div hk, Nat.div_eq_of_lt (by omega)]
    omega
  · rw [if_neg hr0]
    have h1 : k * q + r + k - 1 = k * q + (k * 1 + (r - 1)) := by
      set A := k * q
      omega
    rw [h1, Nat.mul_add_div hk, Nat.mul_add_div hk,
      Nat.div_eq_of_lt (by omega : r - 1 < k)]

theorem cdiv_pos_eq {k : Nat} (hk : 0 < k) {m : Nat} (hm : 1 ≤ m) :
    (m + k - 1) / k = (m - 1) / k + 1 := by
  have h1 : m + k - 1 = (m - 1) + k := by omega
  rw [h1, Nat.add_div_right _ hk]

/-- One `get()` on a reachable pool state: returns client `⌊m/k⌋` and moves
to the next reachable state. -/
theorem poolState_get {k : Nat} (hk : 0 < k) (uri : String) (m : Nat) :
    (poolState uri k m).get = (m / k, poolState uri k (m + 1)) := by
  have hnext : (m + 1 + k - 1) / k = m / k + 1 := by
    have h1 : m + 1 + k - 1 = m + k := by omega
    rw [h1, Nat.add_div_right _ hk]
  simp only [ClientPool.get, poolState, List.length_range]
  rw [hnext]
  by_cases h0 : m % k = 0
  · have hL : (m + k - 1) / k = m / k := by rw [cdiv_eq hk, if_pos h0]
    rw [hL, if_pos (Nat.div_mul_le_self m k), ← List.range_succ,
      range_getD (Nat.lt_succ_self _)]
  · have hL : (m + k - 1) / k = m / k + 1 := by rw [cdiv_eq hk, if_neg h0]
    have hcond : ¬ ((m / k + 1) * k ≤ m) := by
      rw [Nat.succ_mul, Nat.mul_comm (m / k) k]
      have hdm := Nat.div_add_mod m k
      have hmlt := Nat.mod_lt m hk
      set A := k * (m / k)
      omega
    rw [hL, if_neg hcond, range_getD (by omega : m / k < m / k + 1)]

theorem poolState_getN {k : Nat} (hk : 0 < k) (uri : String) (m n : Nat) :
    (poolState uri k m).getN n =
      ((List.range' m n).map (fun j => j / k), poolState uri k (m + n)) := by
  induction n generalizing m with
  | zero => rfl
  | succ n ih =>
      rw [ClientPool.getN]
      simp only [poolState_get hk, ih (m + 1), List.range'_succ, List.map_cons]
      have : m + (n + 1) = m + 1 + n := by omega
      rw [this]

theorem new_eq_poolState (uri : String) (k : Nat) :
    ClientPool.new uri k = poolState uri k 0 := by
  have h0 : (0 + k - 1) / k = 0 := by
    rcases Nat.eq_zero_or_pos k with h | h
    · subst h
      rfl
    · exact Nat.div_eq_of_lt (by omega)
  simp only [ClientPool.new, poolState, h0, List.range_zero]

theorem map_div_range_toFinset {k : Nat} (hk : 0 < k) (m : Nat) :
    ((List.range m).map (fun j => j / k)).toFinset =
      Finset.range ((m + k - 1) / k) := by
  ext i
  simp only [List.mem_toFinset, List.mem_map, List.mem_range, Finset.mem_range]
  constructor
  · rintro ⟨j, hj, rfl⟩
    have hm1 : 1 ≤ m := by omega
    rw [cdiv_pos_eq hk hm1]
    exact Nat.lt_succ_of_le (Nat.div_le_div_right (by omega))
  · intro hi
    have hm1 : 1 ≤ m := by
      by_contra hcon
      have hm0 : m = 0 := by omega
      subst hm0
      rw [Nat.div_eq_of_lt (by omega)] at hi
      exact Nat.not_lt_zero i hi
    rw [cdiv_pos_eq hk hm1] at hi
    have h3 : i ≤ (m - 1) / k := Nat.lt_succ_iff.mp hi
    have h4 : i * k ≤ ((m - 1) / k) * k := Nat.mul_le_mul_right k h3
    have h5 : ((m - 1) / k) * k ≤ m - 1 := Nat.div_mul_le_self _ _
    refine ⟨i * k, ?_, Nat.mul_div_cancel i hk⟩
    set A := i * k
    set B := ((m - 1) / k) * k
    omega

/-- C2: on a pool with `per_client_max = k > 0`, call number `j` (0-based)
of `get()` returns client `⌊j/k⌋`; after `m` calls the pool holds clients
`0..⌈m/k⌉-1` and the number of distinct clients ever returned is
`⌈m/k⌉ = (m + k - 1) / k`; and a call made from the reachable state with
`get_index = j` creates a new client exactly when `j` is a block boundary
(`k ∣ j`). -/
theorem clientPool_get_blocks (uri : String) (k : Nat) (hk : 0 < k) (m : Nat) :
    ((ClientPool.new uri k).getN m).1 = (List.range m).map (fun j => j / k) ∧
    ((ClientPool.new uri k).getN m).2.clients = List.range ((m + k - 1) / k) ∧
    (((ClientPool.new uri k).getN m).1).toFinset.card = (m + k - 1) / k ∧
    ∀ j : Nat, ((poolState uri k j).get).2.clients.length =
      (poolState uri k j).clients.length + (if j % k = 0 then 1 else 0) := by
  have hgetN := poolState_getN hk uri 0 m
  rw [new_eq_poolState]
  refine ⟨?_, ?_, ?_, ?_⟩
  · rw [hgetN, List.range_eq_range']
  · rw [hgetN]
    simp [poolState]
  · rw [hgetN]
    simp only
    rw [← List.range_eq_range', map_div_range_toFinset hk m, Finset.card_range]
  · intro j
    rw [poolState_get hk]
    simp only [poolState, List.length_range]
    have ha : (j + 1 + k - 1) / k = j / k + 1 := by
      have h1 : j + 1 + k - 1 = j + k := by omega
      rw [h1, Nat.add_div_right _ hk]
    rw [ha, cdiv_eq hk]
    by_cases h : j % k = 0 <;> simp [h]

/-- C2 witness: `k = 2`, five calls — clients 0,0,1,1,2; `⌈5/2⌉ = 3`; call 4
is a block boundary (creates a client), call 3 is not. -/
theorem clientPool_get_blocks_witness :
    ((ClientPool.new "mongodb" 2).getN 5).1 =
      (List.range 5).map (fun j => j / 2) ∧
    ((ClientPool.new "mongodb" 2).getN 5).2.clients =
      List.range ((5 + 2 - 1) / 2) ∧
    (((ClientPool.new "mongodb" 2).getN 5).1).toFinset.card = (5 + 2 - 1) / 2 ∧
    ((poolState "mongodb" 2 4).get).2.clients.length =
      (poolState "mongodb" 2 4).clients.length + (if 4 % 2 = 0 then 1 else 0) ∧
    ((poolState "mongodb" 2 3).get).2.clients.length =
      (poolState "mongodb" 2 3).clients.length + (if 3 % 2 = 0 then 1 else 0) := by
  have H := clientPool_get_blocks "mongodb" 2 (by decide) 5
  exact ⟨H.1, H.2.1, H.2.2.1, H.2.2.2 4, H.2.2.2 3⟩

/-! ## Replay execution engine structure (`Mongobar::op_exec`)

Worker-level control decisions of `op_exec` embedded as pure functions of
the values they read. -/

/-- `OpRunMode` (mod.rs 30-34). -/
inductive OpRunMode where
  | Readonly
  | ReadWrite
  deriving DecidableEq, Repr

/-- The startup barrier is created with size `thread_count`
(`Barrier::new(thread_count as usize)`, mod.rs 449). -/
def barrierSize (thread_count : Nat) : Nat := thread_count

/-- Whether a worker waits on the startup barrier before its first dispatch
(mod.rs 556-560): only workers with `thread_index < thread_count`, and only
when `loop_count != 1`. -/
def waitsOnGate (thread_index thread_count loop_count : Nat) : Bool :=
  decide (thread_index < thread_count) && decide (loop_count ≠ 1)

/-- C4 counterexample: with `loop_count = 1` a baseline worker
(`thread_index = 0 < thread_count = 4`) does not wait on the barrier,
refuting "this holds for every configured loop_count". -/
theorem waitsOnGate_counterexample :
    (0 : Nat) < 4 ∧ waitsOnGate 0 4 1 = false := by
  constructor
  · decide
  · rfl

/-- C4 (amended): a worker waits on the startup barrier iff it is one of the
first `thread_count` workers and `loop_count ≠ 1`; the barrier is sized
`thread_count`. -/
theorem waitsOnGate_iff (i tc lc : Nat) :
    (waitsOnGate i tc lc = true ↔ (i < tc ∧ lc ≠ 1)) ∧ barrierSize tc = tc := by
  constructor
  · simp [waitsOnGate]
  · rfl

/-- Profiler `profile` commands issued by `op_exec` before workers start
(mod.rs 426-440): query the level; set it to 0 exactly when it was 2. -/
def opExecPreProfileCmds (was : Int) : List Int :=
  if was = 2 then [0] else []

/-- Profiler commands issued by `op_exec` after the workers complete: the
restore block (mod.rs 965-969) is commented out, so none are issued. -/
def opExecPostProfileCmds (_ : Int) : List Int := []

/-- All profiler commands issued over one `op_exec` run. -/
def opExecProfileCmds (was : Int) : List Int :=
  opExecPreProfileCmds was ++ opExecPostProfileCmds was

/-- The profiler level when the run completes, given the level `was` found at
startup: each issued command overwrites the level. -/
def profilerLevelAtEnd (was : Int) : Int :=
  (opExecProfileCmds was).foldl (fun _ c => c) was

/-- C5 counterexample: a database that starts at profiler level 2 ends the
run at level 0, not back at 2 — `op_exec` never restores the level it
lowered. -/
theorem profiler_restore_counterexample :
    profilerLevelAtEnd 2 = 0 ∧ (0 : Int) ≠ 2 := by
  constructor
  · rfl
  · decide

/-- C5 (amended): `op_exec` sets the profiler to 0 exactly when the queried
level is 2, issues no post-run command at all, and hence leaves a level-2
database at 0 and any other level untouched. -/
theorem opExec_profiler_spec (was : Int) :
    (opExecProfileCmds was = if was = 2 then [0] else []) ∧
    opExecPostProfileCmds was = [] ∧
    profilerLevelAtEnd was = (if was = 2 then 0 else was) := by
  refine ⟨?_, rfl, ?_⟩
  · by_cases h : was = 2 <;> simp [opExecProfileCmds, opExecPreProfileCmds,
      opExecPostProfileCmds, h]
  · by_cases h : was = 2 <;> simp [profilerLevelAtEnd, opExecProfileCmds,
      opExecPreProfileCmds, opExecPostProfileCmds, h]

/-- Outcome of the admission-control check at the top of a worker cycle. -/
inductive CycleAction where
  | sleepRestart (ms : Nat)
  | proceed
  deriving DecidableEq, Repr

/-- The admission gate (mod.rs 580-585): when `dyn_cc_limit > 0` and
`querying ≥ dyn_cc_limit`, sleep `rand::random::<u64>() % 100` milliseconds
and restart the cycle; otherwise fall through to the dispatch loop. -/
def admissionGate (dyn_cc_limit querying rand : Nat) : CycleAction :=
  if 0 < dyn_cc_limit ∧ dyn_cc_limit ≤ querying then
    CycleAction.sleepRestart (rand % 100)
  else
    CycleAction.proceed

/-- C6: the admission gate triggers exactly when `dyn_cc_limit > 0` and
`querying ≥ dyn_cc_limit`; when it does the worker sleeps `rand % 100`
(between 0 and 99) milliseconds and dispatches nothing; with
`dyn_cc_limit = 0` it never triggers. -/
theorem admissionGate_spec (l q r : Nat) :
    (admissionGate l q r = CycleAction.sleepRestart (r % 100) ↔
      (0 < l ∧ l ≤ q)) ∧
    (∀ ms, admissionGate l q r = CycleAction.sleepRestart ms → ms ≤ 99) ∧
    admissionGate 0 q r = CycleAction.proceed := by
  refine ⟨?_, ?_, ?_⟩
  · constructor
    · intro h
      by_contra hcon
      rw [admissionGate, if_neg hcon] at h
      exact CycleAction.noConfusion h
    · intro h
      rw [admissionGate, if_pos h]
  · intro ms h
    rw [admissionGate] at h
    split at h
    · have : ms = r % 100 := (CycleAction.sleepRestart.injEq _ _).mp h.symm
      subst this
      have := Nat.mod_lt r (show 0 < 100 by decide)
      omega
    · exact CycleAction.noConfusion h
  · rw [admissionGate, if_neg]
    intro h
    exact absurd h.1 (lt_irrefl 0)

/-- One scan of the stuck-op stack (mod.rs 489-503): collect the keys of
entries whose dispatch instant is older than 10 seconds, emit a timeout log
line per key, and remove them. -/
def stuckScan (stack : List (String × Nat)) : List String × List (String × Nat) :=
  ((stack.filter (fun e => decide (10 < e.2))).map Prod.fst,
   stack.filter (fun e => ! decide (10 < e.2)))

/-- The watchdog task's loop (mod.rs 484-510) over the successive values it
reads from the cancellation signal: while the signal is 0 it sleeps and
retries; on the first non-zero read it performs one scan and then `break`s.
Result: (number of scans performed, timeout log keys, remaining stack). -/
def watchdogRun : List Nat → List (String × Nat) →
    Nat × List String × List (String × Nat)
  | [], stack => (0, [], stack)
  | s :: rest, stack =>
      if s = 0 then watchdogRun rest stack
      else (1, (stuckScan stack).1, (stuckScan stack).2)

/-- C7 counterexample: over two cycles with a non-zero cancellation signal
the watchdog performs one scan, not one per cycle — it exits after the first
scan, refuting "repeatedly (every cycle) scans". -/
theorem watchdogRun_counterexample :
    (watchdogRun [1, 1] [("a", 20)]).1 = 1 ∧ (1 : Nat) ≠ 2 := by
  constructor
  · rfl
  · decide

/-- C7 (amended): the watchdog sleeps while the signal reads 0 and, on the
first non-zero read, performs exactly one scan — emitting one timeout log
key per entry strictly older than 10 seconds and removing exactly those
entries — then exits.  It issues no operation-cancelling action (its result
is only the log keys and the pruned stack). -/
theorem watchdogRun_single_scan (n s : Nat) (rest : List Nat)
    (stack : List (String × Nat)) (hs : s ≠ 0) :
    watchdogRun (List.replicate n 0 ++ s :: rest) stack =
      (1, (stack.filter (fun e => decide (10 < e.2))).map Prod.fst,
       stack.filter (fun e => ! decide (10 < e.2))) := by
  induction n with
  | zero =>
      simp only [List.replicate, List.nil_append, watchdogRun, if_neg hs]
      rfl
  | succ n ih =>
      simp only [List.replicate, List.cons_append, watchdogRun, if_pos rfl]
      exact ih

/-- C7 witness: two idle cycles, then cancellation; the 20 s- and 30 s-old
entries are logged and removed, the 5 s-old entry remains. -/
theorem watchdogRun_single_scan_witness :
    watchdogRun (List.replicate 2 0 ++ 1 :: []) [("a", 20), ("b", 5), ("c", 30)] =
      (1, ([("a", 20), ("b", 5), ("c", 30)].filter
            (fun e => decide (10 < e.2))).map Prod.fst,
       [("a", 20), ("b", 5), ("c", 30)].filter
            (fun e => ! decide (10 < e.2))) :=
  watchdogRun_single_scan 2 1 [] [("a", 20), ("b", 5), ("c", 30)] (by decide)

/-- Whether dispatching a record of kind `op` increments `query_count`
(mod.rs 594-915): read-only verbs always do (mod.rs 628, 647, 676, 715);
write verbs only inside the `ReadWrite` guard (mod.rs 810, 836, 888, 911);
`Op::None` never does (mod.rs 914). -/
def countsQuery (op : Op) (mode : OpRunMode) : Bool :=
  match op, mode with
  | Op.None, _ => false
  | Op.Insert, OpRunMode.Readonly => false
  | Op.Update, OpRunMode.Readonly => false
  | Op.Delete, OpRunMode.Readonly => false
  | Op.FindAndModify, OpRunMode.Readonly => false
  | _, _ => true

/-- The `progress`/`query_count` pair maintained by a worker. -/
structure Counters where
  progress : Nat
  query_count : Nat
  deriving DecidableEq, Repr

/-- Counter effect of dispatching one record (mod.rs 594 increments
`progress` once per record; the per-verb arms increment `query_count` at
most once). -/
def dispatchCounters (mode : OpRunMode) (c : Counters) (op : Op) : Counters :=
  { progress := c.progress + 1,
    query_count := c.query_count + (if countsQuery op mode then 1 else 0) }

/-- Counters after a worker dispatches a sequence of records. -/
def runRecords (mode : OpRunMode) (c : Counters) (ops : List Op) : Counters :=
  ops.foldl (dispatchCounters mode) c

/-- C8: from any state with `query_count ≤ progress` (in particular the
initial zeros), after any sequence of dispatched records
`query_count ≤ progress` still holds — `progress` grows by exactly one per
record while `query_count` grows by at most one, never for `Op::None`, and
never for write verbs in `Readonly` mode. -/
theorem queryCount_le_progress (mode : OpRunMode) (c : Counters)
    (ops : List Op) (h : c.query_count ≤ c.progress) :
    (runRecords mode c ops).query_count ≤ (runRecords mode c ops).progress ∧
    (runRecords mode c ops).progress = c.progress + ops.length ∧
    countsQuery Op.None mode = false ∧
    countsQuery Op.Insert OpRunMode.Readonly = false ∧
    countsQuery Op.Update OpRunMode.Readonly = false ∧
    countsQuery Op.Delete OpRunMode.Readonly = false ∧
    countsQuery Op.FindAndModify OpRunMode.Readonly = false := by
  refine ⟨?_, ?_, by cases mode <;> rfl, rfl, rfl, rfl, rfl⟩
  · induction ops generalizing c with
    | nil => exact h
    | cons op rest ih =>
        refine ih (dispatchCounters mode c op) ?_
        simp only [dispatchCounters]
        split <;> omega
  · induction ops generalizing c with
    | nil => rfl
    | cons op rest ih =>
        have hstep : (dispatchCounters mode c op).query_count ≤
            (dispatchCounters mode c op).progress := by
          simp only [dispatchCounters]
          split <;> omega
        have := ih (dispatchCounters mode c op) hstep
        simp only [runRecords, List.foldl_cons, List.length_cons] at this ⊢
        rw [this]
        simp only [dispatchCounters]
        omega

/-- C8 witness: a Readonly run over a mixed record sequence from the zero
counters. -/
theorem queryCount_le_progress_witness :
    (runRecords OpRunMode.Readonly (Counters.mk 0 0)
      [Op.Find, Op.None, Op.Delete, Op.Insert, Op.Aggregate]).query_count ≤
      (runRecords OpRunMode.Readonly (Counters.mk 0 0)
        [Op.Find, Op.None, Op.Delete, Op.Insert, Op.Aggregate]).progress ∧
    (runRecords OpRunMode.Readonly (Counters.mk 0 0)
      [Op.Find, Op.None, Op.Delete, Op.Insert, Op.Aggregate]).progress =
      (Counters.mk 0 0).progress +
        [Op.Find, Op.None, Op.Delete, Op.Insert, Op.Aggregate].length ∧
    countsQuery Op.None OpRunMode.Readonly = false ∧
    countsQuery Op.Insert OpRunMode.Readonly = false ∧
    countsQuery Op.Update OpRunMode.Readonly = false ∧
    countsQuery Op.Delete OpRunMode.Readonly = false ∧
    countsQuery Op.FindAndModify OpRunMode.Readonly = false :=
  queryCount_le_progress OpRunMode.Readonly (Counters.mk 0 0)
    [Op.Find, Op.None, Op.Delete, Op.Insert, Op.Aggregate] (by decide)

/-! ## Delete dispatch (`op_exec`, mod.rs 839-890) -/

/-- A database driver call issued by the dispatch arms. -/
inductive DriverCall where
  | deleteMany (coll : String) (q : Json)

/-- Handling of a single element of `cmd.deletes[]` (mod.rs 846-865):
`Document::deserialize` panics unless the entry is an object (`none`);
`get_document("q")` succeeds only for an object-valued `q`; the `limit`
field is read into a local (mod.rs 851) and the call is always
`delete_many(q)`. -/
def deleteEntryCall (coll : String) (entry : Json) : Option (List DriverCall) :=
  match entry with
  | Json.jobj _ =>
      match entry.get "q" with
      | some (Json.jobj qf) => some [DriverCall.deleteMany coll (Json.jobj qf)]
      | _ => some []
  | _ => Option.none

/-- The `for delete in deletes.iter()` loop (mod.rs 846-865): calls issued
in order; a panic anywhere aborts (`none`). -/
def deleteEntriesCalls (coll : String) : List Json → Option (List DriverCall)
  | [] => some []
  | e :: rest => do
      let c ← deleteEntryCall coll e
      let cs ← deleteEntriesCalls coll rest
      pure (c ++ cs)

/-- The driver calls of the `Op::Delete` arm of `op_exec` (mod.rs 839-890):
nothing in `Readonly`; in `ReadWrite`, iterate `cmd.deletes[]` (panic if not
an array), or fall back to a top-level `q`. -/
def dispatchDelete (mode : OpRunMode) (coll : String) (cmd : Json) :
    Option (List DriverCall) :=
  match mode with
  | OpRunMode.Readonly => some []
  | OpRunMode.ReadWrite =>
      match cmd.get "deletes" with
      | some ds =>
          match ds.asArr with
          | some entries => deleteEntriesCalls coll entries
          | Option.none => Option.none
      | Option.none =>
          match cmd.get "q" with
          | some _ =>
              match cmd with
              | Json.jobj _ =>
                  match cmd.get "q" with
                  | some (Json.jobj qf) =>
                      some [DriverCall.deleteMany coll (Json.jobj qf)]
                  | _ => some []
              | _ => Option.none
          | Option.none => some []

/-- The delete entry `{q: …, limit: …}` as captured in the forward log. -/
def mkDeleteEntry (q : Json) (limit : Int) : Json :=
  Json.jobj [("q", q), ("limit", Json.jnum limit)]

/-- A Delete command `{deletes: [...]}` built from `(q, limit)` pairs. -/
def mkDeleteCmd (entries : List (Json × Int)) : Json :=
  Json.jobj [("deletes", Json.jarr (entries.map (fun e => mkDeleteEntry e.1 e.2)))]

/-- The calls the engine issues for one predicate: `delete_many(q)` whenever
`q` is a document, regardless of any limit. -/
def deleteCallsOf (coll : String) (q : Json) : List DriverCall :=
  match q with
  | Json.jobj _ => [DriverCall.deleteMany coll q]
  | _ => []

/-- C9: in ReadWrite mode, every entry of `cmd.deletes[]` with a
document-valued `q` produces exactly `delete_many(q)`; the result does not
mention the limits at all, so a captured `limit = 1` single-document delete
is replayed as an unbounded `delete_many`.  The top-level-`q` fallback shape
behaves the same way. -/
theorem dispatchDelete_ignores_limit (coll : String) (entries : List (Json × Int)) :
    dispatchDelete OpRunMode.ReadWrite coll (mkDeleteCmd entries) =
      some ((entries.map (fun e => deleteCallsOf coll e.1)).flatten) ∧
    (∀ qf l, dispatchDelete OpRunMode.ReadWrite coll
        (Json.jobj [("q", Json.jobj qf), ("limit", Json.jnum l)]) =
      some [DriverCall.deleteMany coll (Json.jobj qf)]) := by
  constructor
  · have hcalls : ∀ es : List (Json × Int),
        deleteEntriesCalls coll (es.map (fun e => mkDeleteEntry e.1 e.2)) =
          some ((es.map (fun e => deleteCallsOf coll e.1)).flatten) := by
      intro es
      induction es with
      | nil => rfl
      | cons e rest ih =>
          have hentry : deleteEntryCall coll (mkDeleteEntry e.1 e.2) =
              some (deleteCallsOf coll e.1) := by
            cases hq : e.1 <;>
              simp [deleteEntryCall, mkDeleteEntry, deleteCallsOf, Json.get,
                List.lookup]
          simp [deleteEntriesCalls, hentry, ih]
    have hmain := hcalls entries
    simp only [dispatchDelete, mkDeleteCmd, Json.get, List.lookup, Json.asArr]
    exact hmain
  · intro qf l
    rfl

/-! ## Metrics registry (`indicator.rs`)

`Arc<Metric>` sharing is modelled with an explicit heap: `cells` is the list
of live `Metric` allocations (a cell id is an `Arc` target) and `metric` is
the `HashMap<String, Arc<Metric>>` as a name → cell-id association list. -/

/-- `Metric` (indicator.rs 10-17), restricted to its observable state: the
atomic counter and the log buffer. -/
structure Metric where
  number : Nat
  logs : List String
  deriving DecidableEq, Repr

/-- `Metric::default()` (indicator.rs 19-34): zero counter, empty logs. -/
def Metric.init : Metric := { number := 0, logs := [] }

/-- `Indicator` (indicator.rs 99-102) plus the heap of metric cells. -/
structure Indicator where
  cells : List Metric
  metric : List (String × Nat)
  deriving DecidableEq, Repr

/-- Well-formedness: every registered handle points into the heap. -/
def Indicator.wf (ind : Indicator) : Prop :=
  ∀ p ∈ ind.metric, p.2 < ind.cells.length

/-- `Indicator::take` (indicator.rs 133-139): clone the registered handle if
the name exists, else return `Some` of a freshly allocated default `Metric`
that is not inserted into the map. -/
def Indicator.take (ind : Indicator) (name : String) : Option Nat × Indicator :=
  match ind.metric.lookup name with
  | some cid => (some cid, ind)
  | Option.none =>
      (some ind.cells.length, { ind with cells := ind.cells ++ [Metric.init] })

/-- In-place update of one heap cell (an update made through a handle). -/
def updateNth : List Metric → Nat → (Metric → Metric) → List Metric
  | [], _, _ => []
  | x :: xs, 0, f => f x :: xs
  | x :: xs, n + 1, f => x :: updateNth xs n f

/-- Mutating the metric a handle points at (e.g. `increment`/`push`). -/
def Indicator.updateCell (ind : Indicator) (cid : Nat) (f : Metric → Metric) :
    Indicator :=
  { ind with cells := updateNth ind.cells cid f }

/-- What any other reader of the registry observes for a name: resolve the
name through the map, then read the cell. -/
def Indicator.readName (ind : Indicator) (n : String) : Option Metric :=
  (ind.metric.lookup n).bind (fun cid => ind.cells[cid]?)

theorem updateNth_getElem_ne (l : List Metric) (i j : Nat)
    (f : Metric → Metric) (h : i ≠ j) : (updateNth l j f)[i]? = l[i]? := by
  induction l generalizing i j with
  | nil => rfl
  | cons x xs ih =>
      cases j with
      | zero =>
          cases i with
          | zero => exact absurd rfl h
          | succ i => simp [updateNth]
      | succ j =>
          cases i with
          | zero => simp [updateNth]
          | succ i =>
              simp only [updateNth, List.getElem?_cons_succ]
              exact ih i j (fun hc => h (by rw [hc]))

theorem lookup_mem : ∀ {l : List (String × Nat)} {k : String} {v : Nat},
    l.lookup k = some v → (k, v) ∈ l := by
  intro l
  induction l with
  | nil =>
      intro k v h
      cases h
  | cons p rest ih =>
      intro k v h
      obtain ⟨a, b⟩ := p
      by_cases hk : k = a
      · subst hk
        simp only [List.lookup, beq_self_eq_true, Option.some.injEq] at h
        subst h
        exact List.mem_cons_self _ _
      · have hne : (k == a) = false := beq_eq_false_iff_ne.mpr hk
        simp only [List.lookup, hne] at h
        exact List.mem_cons_of_mem _ (ih h)

/-- C10: `take` never returns `None`: a registered name yields the shared
registry handle (and the registry is untouched); an unregistered name yields
a fresh zero-valued metric outside the map, so any update made through that
handle is invisible to every reader that goes through the registry. -/
theorem indicator_take_spec (ind : Indicator) (name : String) :
    (ind.take name).1 ≠ Option.none ∧
    (∀ cid, ind.metric.lookup name = some cid → ind.take name = (some cid, ind)) ∧
    (ind.metric.lookup name = Option.none →
      (ind.take name).1 = some ind.cells.length ∧
      ((ind.take name).2).cells[ind.cells.length]? = some Metric.init ∧
      Metric.init.number = 0 ∧
      ((ind.take name).2).metric = ind.metric ∧
      (ind.wf → ∀ (f : Metric → Metric) (other : String),
        (((ind.take name).2).updateCell ind.cells.length f).readName other =
          ind.readName other)) := by
  cases hlook : ind.metric.lookup name with
  | some cid =>
      refine ⟨?_, ?_, ?_⟩
      · simp [Indicator.take, hlook]
      · intro c hc
        obtain rfl : cid = c := Option.some.inj hc
        simp [Indicator.take, hlook]
      · intro hnone
        cases hnone
  | none =>
      refine ⟨?_, ?_, ?_⟩
      · simp [Indicator.take, hlook]
      · intro c hc
        cases hc
      · intro _
        refine ⟨?_, ?_, rfl, ?_, ?_⟩
        · simp [Indicator.take, hlook]
        · simp [Indicator.take, hlook]
        · simp [Indicator.take, hlook]
        · intro hwf f other
          simp only [Indicator.take, hlook, Indicator.updateCell,
            Indicator.readName]
          cases hother : ind.metric.lookup other with
          | none => rfl
          | some cid =>
              have hmem : (other, cid) ∈ ind.metric := lookup_mem hother
              have hlt : cid < ind.cells.length := hwf (other, cid) hmem
              simp only [Option.bind_eq_bind, Option.some_bind]
              rw [updateNth_getElem_ne _ _ _ _ (Nat.ne_of_lt hlt),
                List.getElem?_append_left hlt]

/-- A registry holding one registered metric (cell 0). -/
def sampleIndicator : Indicator :=
  { cells := [Metric.mk 5 []], metric := [("query_count", 0)] }

/-- C10 witness: taking the unregistered name "dyn_extra" yields a fresh
zero metric at cell 1 outside the map; incrementing through that handle is
invisible when reading "query_count" through the registry. -/
theorem indicator_take_spec_witness :
    (sampleIndicator.take "dyn_extra").1 = some sampleIndicator.cells.length ∧
    ((sampleIndicator.take "dyn_extra").2).cells[sampleIndicator.cells.length]? =
      some Metric.init ∧
    Metric.init.number = 0 ∧
    ((sampleIndicator.take "dyn_extra").2).metric = sampleIndicator.metric ∧
    (((sampleIndicator.take "dyn_extra").2).updateCell
        sampleIndicator.cells.length
        (fun m => { m with number := m.number + 1 })).readName "query_count" =
      sampleIndicator.readName "query_count" := by
  have H := (indicator_take_spec sampleIndicator "dyn_extra").2.2 (by rfl)
  exact ⟨H.1, H.2.1, H.2.2.1, H.2.2.2.1,
    H.2.2.2.2
      (by
        intro p hp
        simp only [sampleIndicator, List.mem_singleton] at hp
        subst hp
        decide)
      (fun m => { m with number := m.number + 1 }) "query_count"⟩
